import Mathlib

/-!
Verification of the release-ordering logic and derived package properties of
`crate_project/apps/packages/models.py`.

The Django ORM layer is embedded shallowly:

* a database of releases is a `List Release` (rows in table order);
* `Release.objects.filter(package__pk=p)` is `List.filter` on the `package_pk`
  field;
* `Release.objects.filter(pk=...).update(order=i)` maps over the database,
  rewriting the `order` field of the rows with the given primary key;
* the `post_save` signal handler `version_ordering(sender, **kwargs)` becomes a
  function from the database, the `instance` kwarg (`Option Release`) and the
  `created` kwarg (`Option Bool`, `kwargs.get("created", True)`) to the new
  database paired with the list of primary keys written (in write order);
* Python's stable `list.sort(key=...)` is `List.insertionSort`, a stable sort.
-/

/-- Modelled from the spec: the `verlib` version-normalization library
(`packages.utils.verlib`) is imported by `models.py` but is not part of this
source slice; the spec describes it as an external capability
`parse(version_string) -> normalized_or_none` together with a comparison on
normalized versions.  `NV` is the type of `verlib.NormalizedVersion` values,
`suggest` is `verlib.suggest_normalized_version` composed with the
`NormalizedVersion` constructor, `nvle` is the (total pre)order used when
sorting by `NormalizedVersion` keys, and `normStr` is `str(NormalizedVersion)`
as used by `requirement_line`. -/
structure Verlib (NV : Type) where
  suggest : String → Option NV
  nvle : NV → NV → Bool
  normStr : NV → String

/-- One row of the `Release` table (model `Release` in `models.py`, plus the
`created`/`modified` columns inherited from `TimeStampedModel`).  `pk` is the
primary key, `package_pk` the foreign key to `Package`.  Timestamps are
abstracted as naturals. -/
structure Release where
  pk : Nat
  package_pk : Nat
  version : String
  hidden : Bool
  order : Int
  summary : String
  description : String
  keywords : String
  license : String
  author : String
  author_email : String
  maintainer : String
  maintainer_email : String
  requires_python : String
  download_uri : String
  created : Nat
  modified : Nat
deriving DecidableEq, Repr

/-- Everything of a `Release` except its `order` field, used to state that the
ordering routine mutates nothing but `order`. -/
structure ReleaseFrame where
  pk : Nat
  package_pk : Nat
  version : String
  hidden : Bool
  summary : String
  description : String
  keywords : String
  license : String
  author : String
  author_email : String
  maintainer : String
  maintainer_email : String
  requires_python : String
  download_uri : String
  created : Nat
  modified : Nat
deriving DecidableEq, Repr

/-- Project a release onto all of its fields except `order`. -/
def Release.frame (r : Release) : ReleaseFrame :=
  ⟨r.pk, r.package_pk, r.version, r.hidden, r.summary, r.description,
   r.keywords, r.license, r.author, r.author_email, r.maintainer,
   r.maintainer_email, r.requires_python, r.download_uri, r.created, r.modified⟩

/-- `Release.objects.filter(package__pk=pkgPk)`: the releases of one package,
in database (list) order. -/
def packageReleases (db : List Release) (pkgPk : Nat) : List Release :=
  db.filter fun r => r.package_pk = pkgPk

/-- The `for release in releases:` loop of `version_ordering`: partition the
releases into `(versions, dated)` according to whether
`verlib.suggest_normalized_version(release.version)` is not `None`. -/
def partitionReleases (V : Verlib NV) : List Release → List Release × List Release
  | [] => ([], [])
  | r :: rest =>
    match V.suggest r.version with
    | some _ => (r :: (partitionReleases V rest).1, (partitionReleases V rest).2)
    | none => ((partitionReleases V rest).1, r :: (partitionReleases V rest).2)

/-- The comparison underlying
`versions.sort(key=lambda x: verlib.NormalizedVersion(verlib.suggest_normalized_version(x.version)))`:
compare two releases by their normalized-version keys.  On the `versions`
bucket both keys are always `some`; the `none` branches are never exercised
there (in Python they would raise before reaching the comparison). -/
def vkeyLe (V : Verlib NV) (x y : Release) : Bool :=
  match V.suggest x.version, V.suggest y.version with
  | some a, some b => V.nvle a b
  | some _, none => false
  | none, _ => true

/-- `vkeyLe` as a relation, for `List.insertionSort`. -/
def vrel (V : Verlib NV) (x y : Release) : Prop :=
  vkeyLe V x y = true

instance (V : Verlib NV) : DecidableRel (vrel V) :=
  fun x y => inferInstanceAs (Decidable (vkeyLe V x y = true))

/-- The comparison underlying `dated.sort(key=lambda x: x.created)`. -/
def crel (x y : Release) : Prop :=
  x.created ≤ y.created

instance : DecidableRel crel :=
  fun x y => inferInstanceAs (Decidable (x.created ≤ y.created))

/-- The list `dated + versions` of `version_ordering` after both in-place
sorts: dated releases ascending by creation time, then versioned releases
ascending by normalized-version comparison. -/
def orderedReleases (V : Verlib NV) (db : List Release) (pkgPk : Nat) : List Release :=
  let p := partitionReleases V (packageReleases db pkgPk)
  List.insertionSort crel p.2 ++ List.insertionSort (vrel V) p.1

/-- `Release.objects.filter(pk=pk).update(order=i)`: rewrite the `order` field
of the rows with primary key `pk`. -/
def updateOrder (db : List Release) (pk : Nat) (i : Int) : List Release :=
  db.map fun r => if r.pk = pk then { r with order := i } else r

/-- The `for i, release in enumerate(dated + versions):` loop: walk the
concatenation with its 0-based index, and for each release whose snapshot
`order` differs from its index, write the index into the database and record
the written primary key. -/
def assignOrders (i : Nat) : List Release → List Release × List Nat → List Release × List Nat
  | [], acc => acc
  | r :: rest, (db, w) =>
    if r.order ≠ (i : Int) then
      assignOrders (i + 1) rest (updateOrder db r.pk i, w ++ [r.pk])
    else
      assignOrders (i + 1) rest (db, w)

/-- The `post_save` receiver `version_ordering(sender, **kwargs)`.  Returns the
new database together with the primary keys written.  The guard mirrors
`if instance is not None and kwargs.get("created", True):`. -/
def version_ordering (V : Verlib NV) (db : List Release)
    (inst? : Option Release) (created? : Option Bool) : List Release × List Nat :=
  match inst? with
  | none => (db, [])
  | some inst =>
    if created?.getD true then
      assignOrders 0 (orderedReleases V db inst.package_pk) (db, [])
    else
      (db, [])

/-- The cumulative effect of the `assignOrders` loop on a single database row:
each iteration `(i, s)` of the loop rewrites the row to `{row with order := i}`
exactly when the guard `s.order != i` fired and the row's primary key is `s`'s. -/
def applyAssign (i : Nat) : List Release → Release → Release
  | [], r => r
  | s :: rest, r =>
    applyAssign (i + 1) rest
      (if s.order ≠ (i : Int) ∧ r.pk = s.pk then { r with order := (i : Int) } else r)

/-- `Package.latest`: `self.releases.order_by("-order")[:1]`, i.e. the head of
the package's releases sorted descending by `order`, or `None` when the
package has no releases. -/
def packageLatest (db : List Release) (pkgPk : Nat) : Option Release :=
  (List.insertionSort (fun a b : Release => b.order ≤ a.order)
    (packageReleases db pkgPk)).head?

def dotSep : String := "."

def emptyStr : String := ""

def geStr : String := ">="

def commaLtStr : String := ",<"

def eqeqStr : String := "=="

/-- `Package.requirement_line`: `None` when there is no latest release;
otherwise `name>=current,<major.(minor+1)` when the latest version normalizes,
else `name==version`.  (`int(...)` on a non-numeric minor component, which
would raise in Python, is out of scope of the claims and totalized with a
default.) -/
def requirementLine (V : Verlib NV) (db : List Release)
    (pkgName : String) (pkgPk : Nat) : Option String :=
  match packageLatest db pkgPk with
  | none => none
  | some rel =>
    match V.suggest rel.version with
    | some nv =>
      let ver := V.normStr nv
      let parts := ver.splitOn dotSep
      let nextVersion :=
        parts.headD emptyStr ++ dotSep ++
          toString ((parts.getD 1 emptyStr).toNat?.getD 0 + 1)
      some (pkgName ++ geStr ++ rel.version ++ commaLtStr ++ nextVersion)
    | none => some (pkgName ++ eqeqStr ++ rel.version)

def verTwo : String := "2"

def verDated : String := "x"

def verOne : String := "1"

def samplePkgName : String := "crate"

/-- A concrete instantiation of the normalization capability used to witness
the theorems: the versions "1" and "2" normalize (to the naturals 1 and 2),
every other version string does not, and normalized versions compare as
naturals. -/
def toyVerlib : Verlib Nat where
  suggest s := if s = verOne then some 1 else if s = verTwo then some 2 else none
  nvle a b := Nat.ble a b
  normStr n := toString n

/-- A sample release used to instantiate the theorems on concrete data. -/
def sampleRelease (pk ppk : Nat) (v : String) (cr : Nat) (o : Int) : Release where
  pk := pk
  package_pk := ppk
  version := v
  hidden := false
  order := o
  summary := emptyStr
  description := emptyStr
  keywords := emptyStr
  license := emptyStr
  author := emptyStr
  author_email := emptyStr
  maintainer := emptyStr
  maintainer_email := emptyStr
  requires_python := emptyStr
  download_uri := emptyStr
  created := cr
  modified := 0

/-- A sample database: package 10 has a versioned release "2" (pk 1, created 5),
a dated release "x" (pk 2, created 3) and a versioned release "1" (pk 4,
created 9); package 11 has one release (pk 3). -/
def sampleDb : List Release :=
  [sampleRelease 1 10 verTwo 5 0, sampleRelease 2 10 verDated 3 0,
   sampleRelease 3 11 verOne 1 0, sampleRelease 4 10 verOne 9 0]

/-! ### Basic facts about `Release` record updates -/

theorem Release.frame_set_order (r : Release) (i : Int) :
    ({ r with order := i } : Release).frame = r.frame := rfl

theorem Release.set_order_self (r : Release) :
    ({ r with order := r.order } : Release) = r := rfl

/-! ### The cumulative per-row effect of the assignment loop -/

theorem applyAssign_frame (l : List Release) :
    ∀ (i : Nat) (r : Release), (applyAssign i l r).frame = r.frame := by
  induction l with
  | nil => intro i r; rfl
  | cons s rest ih =>
    intro i r
    rw [applyAssign]
    split
    · rw [ih]; rfl
    · rw [ih]

theorem applyAssign_pk (l : List Release) (i : Nat) (r : Release) :
    (applyAssign i l r).pk = r.pk :=
  congrArg ReleaseFrame.pk (applyAssign_frame l i r)

theorem applyAssign_package_pk (l : List Release) (i : Nat) (r : Release) :
    (applyAssign i l r).package_pk = r.package_pk :=
  congrArg ReleaseFrame.package_pk (applyAssign_frame l i r)

theorem applyAssign_version (l : List Release) (i : Nat) (r : Release) :
    (applyAssign i l r).version = r.version :=
  congrArg ReleaseFrame.version (applyAssign_frame l i r)

theorem applyAssign_created (l : List Release) (i : Nat) (r : Release) :
    (applyAssign i l r).created = r.created :=
  congrArg ReleaseFrame.created (applyAssign_frame l i r)

/-- A row whose primary key never appears in the loop's snapshot list is left
untouched by the loop. -/
theorem applyAssign_of_pk_not_mem (l : List Release) :
    ∀ (i : Nat) (r : Release), r.pk ∉ l.map Release.pk → applyAssign i l r = r := by
  induction l with
  | nil => intro i r _; rfl
  | cons s rest ih =>
    intro i r h
    simp only [List.map_cons, List.mem_cons, not_or] at h
    rw [applyAssign, if_neg (fun hc => h.1 hc.2)]
    exact ih (i + 1) r h.2

/-- When the snapshot list has pairwise distinct primary keys, the loop rewrites
the row equal to the `k`-th snapshot to carry `order = i + k` (where `i` is the
loop's starting index). -/
theorem applyAssign_getElem (l : List Release) :
    ∀ (i k : Nat) (hk : k < l.length), (l.map Release.pk).Nodup →
      applyAssign i l l[k] = { l[k] with order := ((i + k : Nat) : Int) } := by
  induction l with
  | nil => intro i k hk _; exact absurd hk (by simp)
  | cons s rest ih =>
    intro i k hk hnd
    simp only [List.map_cons, List.nodup_cons] at hnd
    match k with
    | 0 =>
      simp only [List.getElem_cons_zero, Nat.add_zero]
      rw [applyAssign]
      by_cases horder : s.order = (i : Int)
      · rw [if_neg (fun hc => hc.1 horder)]
        rw [applyAssign_of_pk_not_mem rest (i + 1) s hnd.1]
        rw [← horder, Release.set_order_self]
      · rw [if_pos ⟨horder, rfl⟩]
        have hpk : ({ s with order := (i : Int) } : Release).pk ∉ rest.map Release.pk := hnd.1
        rw [applyAssign_of_pk_not_mem rest (i + 1) _ hpk]
    | k + 1 =>
      have hk' : k < rest.length := by simpa using hk
      simp only [List.getElem_cons_succ]
      rw [applyAssign]
      have hpkne : rest[k].pk ≠ s.pk := by
        intro h
        exact hnd.1 (h ▸ List.mem_map_of_mem Release.pk (List.getElem_mem hk'))
      rw [if_neg (fun hc => hpkne hc.2)]
      have := ih (i + 1) k hk' hnd.2
      rw [this]
      have harith : ((i + 1 + k : Nat) : Int) = ((i + (k + 1) : Nat) : Int) := by
        congr 1
        omega
      rw [harith]

/-! ### The assignment loop as a map over the database -/

/-- The new database produced by the assignment loop is the pointwise image of
the old one under `applyAssign`. -/
theorem assignOrders_fst (l : List Release) :
    ∀ (i : Nat) (db : List Release) (w : List Nat),
      (assignOrders i l (db, w)).1 = db.map (applyAssign i l) := by
  induction l with
  | nil =>
    intro i db w
    have h : applyAssign i ([] : List Release) = id := funext fun r => rfl
    rw [assignOrders, h, List.map_id]
  | cons s rest ih =>
    intro i db w
    rw [assignOrders]
    by_cases h : s.order ≠ (i : Int)
    · rw [if_pos h, ih, updateOrder, List.map_map]
      refine List.map_congr_left fun r _ => ?_
      simp only [Function.comp_apply]
      rw [applyAssign]
      by_cases hpk : r.pk = s.pk
      · rw [if_pos hpk, if_pos ⟨h, hpk⟩]
      · rw [if_neg hpk, if_neg fun hc => hpk hc.2]
    · rw [if_neg h, ih]
      refine List.map_congr_left fun r _ => ?_
      rw [applyAssign, if_neg fun hc => h hc.1]

/-- Every primary key recorded as written by the loop is either inherited from
the accumulator or belongs to a snapshot whose `order` differed from its
0-based loop position. -/
theorem assignOrders_snd_mem (l : List Release) :
    ∀ (i : Nat) (db : List Release) (w : List Nat) (q : Nat),
      q ∈ (assignOrders i l (db, w)).2 →
      q ∈ w ∨ ∃ k, ∃ hk : k < l.length,
        l[k].pk = q ∧ l[k].order ≠ ((i + k : Nat) : Int) := by
  induction l with
  | nil =>
    intro i db w q h
    rw [assignOrders] at h
    exact Or.inl h
  | cons s rest ih =>
    intro i db w q h
    rw [assignOrders] at h
    by_cases hg : s.order ≠ (i : Int)
    · rw [if_pos hg] at h
      rcases ih (i + 1) _ _ q h with hw | ⟨k, hk, hpk, hord⟩
      · rcases List.mem_append.mp hw with hw' | hw'
        · exact Or.inl hw'
        · refine Or.inr ⟨0, by simp, ?_, ?_⟩
          · simpa using (List.mem_singleton.mp hw').symm
          · simpa using hg
      · refine Or.inr ⟨k + 1, by simpa using Nat.succ_lt_succ hk, ?_, ?_⟩
        · simpa using hpk
        · have harith : (i + (k + 1) : Nat) = (i + 1 + k : Nat) := by omega
          simpa [harith] using hord
    · rw [if_neg hg] at h
      rcases ih (i + 1) _ _ q h with hw | ⟨k, hk, hpk, hord⟩
      · exact Or.inl hw
      · refine Or.inr ⟨k + 1, by simpa using Nat.succ_lt_succ hk, ?_, ?_⟩
        · simpa using hpk
        · have harith : (i + (k + 1) : Nat) = (i + 1 + k : Nat) := by omega
          simpa [harith] using hord

/-- When every snapshot already carries its loop position as `order`, the loop
writes nothing and leaves the database untouched. -/
theorem assignOrders_of_orders_eq (l : List Release) :
    ∀ (i : Nat) (db : List Release) (w : List Nat),
      (∀ k (hk : k < l.length), l[k].order = ((i + k : Nat) : Int)) →
      assignOrders i l (db, w) = (db, w) := by
  induction l with
  | nil => intro i db w _; rfl
  | cons s rest ih =>
    intro i db w h
    have h0 : s.order = (i : Int) := by simpa using h 0 (by simp)
    rw [assignOrders, if_neg (not_not_intro h0)]
    refine ih (i + 1) db w fun k hk => ?_
    have harith : (i + 1 + k : Nat) = (i + (k + 1) : Nat) := by omega
    have := h (k + 1) (by simpa using Nat.succ_lt_succ hk)
    simpa [harith] using this

/-! ### Looking rows up by primary key -/

theorem find?_pk_map (g : Release → Release) (hg : ∀ r, (g r).pk = r.pk)
    (db : List Release) (q : Nat) :
    (db.map g).find? (fun s => s.pk = q) = (db.find? (fun s => s.pk = q)).map g := by
  have hp : ((fun s : Release => decide (s.pk = q)) ∘ g)
      = fun s : Release => decide (s.pk = q) := by
    funext r
    simp [Function.comp, hg]
  rw [List.find?_map, hp]

theorem find?_pk_of_nodup {r : Release} :
    ∀ (db : List Release), r ∈ db → (db.map Release.pk).Nodup →
      db.find? (fun s => s.pk = r.pk) = some r := by
  intro db
  induction db with
  | nil => intro h; exact absurd h (by simp)
  | cons a t ih =>
    intro hr hnd
    simp only [List.map_cons, List.nodup_cons] at hnd
    rcases List.mem_cons.mp hr with rfl | hr'
    · exact List.find?_cons_of_pos _ (by simp)
    · have hne : a.pk ≠ r.pk := by
        intro h
        exact hnd.1 (h ▸ List.mem_map_of_mem Release.pk hr')
      rw [List.find?_cons_of_neg _ (by simpa using hne)]
      exact ih hr' hnd.2

/-! ### The partition loop -/

theorem partitionReleases_perm (V : Verlib NV) :
    ∀ l : List Release,
      l.Perm ((partitionReleases V l).1 ++ (partitionReleases V l).2) := by
  intro l
  induction l with
  | nil => rfl
  | cons r rest ih =>
    rcases hs : V.suggest r.version with _ | nv
    · simp only [partitionReleases, hs]
      exact (ih.cons r).trans List.perm_middle.symm
    · simp only [partitionReleases, hs]
      exact ih.cons r

theorem mem_partition_fst {V : Verlib NV} :
    ∀ {l : List Release}, ∀ x ∈ (partitionReleases V l).1,
      (V.suggest x.version).isSome := by
  intro l
  induction l with
  | nil => intro x hx; exact absurd hx (by simp [partitionReleases])
  | cons r rest ih =>
    intro x hx
    rcases hs : V.suggest r.version with _ | nv
    · rw [partitionReleases] at hx
      simp only [hs] at hx
      exact ih x hx
    · rw [partitionReleases] at hx
      simp only [hs] at hx
      rcases List.mem_cons.mp hx with rfl | hx'
      · simp [hs]
      · exact ih x hx'

theorem mem_partition_snd {V : Verlib NV} :
    ∀ {l : List Release}, ∀ x ∈ (partitionReleases V l).2,
      V.suggest x.version = none := by
  intro l
  induction l with
  | nil => intro x hx; exact absurd hx (by simp [partitionReleases])
  | cons r rest ih =>
    intro x hx
    rcases hs : V.suggest r.version with _ | nv
    · rw [partitionReleases] at hx
      simp only [hs] at hx
      rcases List.mem_cons.mp hx with rfl | hx'
      · exact hs
      · exact ih x hx'
    · rw [partitionReleases] at hx
      simp only [hs] at hx
      exact ih x hx

theorem mem_partition_fst_of_isSome {V : Verlib NV} {x : Release} :
    ∀ {l : List Release}, x ∈ l → (V.suggest x.version).isSome →
      x ∈ (partitionReleases V l).1 := by
  intro l
  induction l with
  | nil => intro hx; exact absurd hx (by simp)
  | cons r rest ih =>
    intro hx hsome
    rcases List.mem_cons.mp hx with rfl | hx'
    · rcases hs : V.suggest x.version with _ | nv
      · rw [hs] at hsome; exact absurd hsome (by simp)
      · rw [partitionReleases]
        simp only [hs]
        exact List.mem_cons_self _ _
    · rcases hs : V.suggest r.version with _ | nv
      · rw [partitionReleases]
        simp only [hs]
        exact ih hx' hsome
      · rw [partitionReleases]
        simp only [hs]
        exact List.mem_cons_of_mem _ (ih hx' hsome)

theorem mem_partition_snd_of_none {V : Verlib NV} {x : Release} :
    ∀ {l : List Release}, x ∈ l → V.suggest x.version = none →
      x ∈ (partitionReleases V l).2 := by
  intro l
  induction l with
  | nil => intro hx; exact absurd hx (by simp)
  | cons r rest ih =>
    intro hx hnone
    rcases List.mem_cons.mp hx with rfl | hx'
    · rw [partitionReleases]
      simp only [hnone]
      exact List.mem_cons_self _ _
    · rcases hs : V.suggest r.version with _ | nv
      · rw [partitionReleases]
        simp only [hs]
        exact List.mem_cons_of_mem _ (ih hx' hnone)
      · rw [partitionReleases]
        simp only [hs]
        exact ih hx' hnone

/-! ### The concatenated, sorted snapshot list -/

theorem orderedReleases_perm (V : Verlib NV) (db : List Release) (pkgPk : Nat) :
    (orderedReleases V db pkgPk).Perm (packageReleases db pkgPk) := by
  rw [orderedReleases]
  refine (((List.perm_insertionSort crel _).append
    (List.perm_insertionSort (vrel V) _)).trans ?_)
  exact List.perm_append_comm.trans (partitionReleases_perm V _).symm

theorem nodup_pk_packageReleases {db : List Release} {pkgPk : Nat}
    (hnd : (db.map Release.pk).Nodup) :
    ((packageReleases db pkgPk).map Release.pk).Nodup :=
  hnd.sublist ((List.filter_sublist db).map Release.pk)

theorem nodup_pk_orderedReleases {V : Verlib NV} {db : List Release} {pkgPk : Nat}
    (hnd : (db.map Release.pk).Nodup) :
    ((orderedReleases V db pkgPk).map Release.pk).Nodup :=
  (((orderedReleases_perm V db pkgPk).map Release.pk).nodup_iff).mpr
    (nodup_pk_packageReleases hnd)

theorem mem_db_of_mem_orderedReleases {V : Verlib NV} {db : List Release}
    {pkgPk : Nat} {r : Release} (hr : r ∈ orderedReleases V db pkgPk) : r ∈ db :=
  List.filter_sublist db |>.mem ((orderedReleases_perm V db pkgPk).mem_iff.mp hr)

/-! ### The handler on a created instance -/

theorem version_ordering_created (V : Verlib NV) (db : List Release) (inst : Release) :
    version_ordering V db (some inst) (some true)
      = assignOrders 0 (orderedReleases V db inst.package_pk) (db, []) := rfl

theorem version_ordering_fst (V : Verlib NV) (db : List Release) (inst : Release) :
    (version_ordering V db (some inst) (some true)).1
      = db.map (applyAssign 0 (orderedReleases V db inst.package_pk)) := by
  rw [version_ordering_created]
  exact assignOrders_fst _ 0 db []

/-- The postcondition of the assignment loop: after the handler runs on a
created release, the database row whose primary key is that of the `k`-th
element of the sorted concatenation `dated + versions` is that element with
`order = k`. -/
theorem version_ordering_find (V : Verlib NV) (db : List Release) (inst : Release)
    (hnd : (db.map Release.pk).Nodup) (k : Nat)
    (hk : k < (orderedReleases V db inst.package_pk).length) :
    (version_ordering V db (some inst) (some true)).1.find?
        (fun s => s.pk = (orderedReleases V db inst.package_pk)[k].pk)
      = some { (orderedReleases V db inst.package_pk)[k] with order := (k : Int) } := by
  have hg : ∀ r, (applyAssign 0 (orderedReleases V db inst.package_pk) r).pk = r.pk :=
    applyAssign_pk _ 0
  rw [version_ordering_fst, find?_pk_map _ hg]
  have hmem : (orderedReleases V db inst.package_pk)[k] ∈ db :=
    mem_db_of_mem_orderedReleases (List.getElem_mem hk)
  rw [find?_pk_of_nodup _ hmem hnd]
  have := applyAssign_getElem (orderedReleases V db inst.package_pk) 0 k hk
    (nodup_pk_orderedReleases hnd)
  rw [Option.map_some']
  rw [this]
  simp

/-! ### Naturality: rewriting the `order` field commutes with the query,
partition and sort stages, which only inspect other fields -/

theorem packageReleases_map {g : Release → Release}
    (hppk : ∀ r, (g r).package_pk = r.package_pk) (db : List Release) (pkgPk : Nat) :
    packageReleases (db.map g) pkgPk = (packageReleases db pkgPk).map g := by
  have hp : ((fun r : Release => decide (r.package_pk = pkgPk)) ∘ g)
      = fun r : Release => decide (r.package_pk = pkgPk) := by
    funext r
    simp [Function.comp, hppk]
  rw [packageReleases, packageReleases, List.filter_map, hp]

theorem partitionReleases_map {V : Verlib NV} {g : Release → Release}
    (hver : ∀ r, (g r).version = r.version) :
    ∀ l : List Release,
      partitionReleases V (l.map g)
        = ((partitionReleases V l).1.map g, (partitionReleases V l).2.map g) := by
  intro l
  induction l with
  | nil => rfl
  | cons r rest ih =>
    rcases hs : V.suggest r.version with _ | nv
    · rw [List.map_cons, partitionReleases, partitionReleases]
      simp only [hver, hs, ih, List.map_cons]
    · rw [List.map_cons, partitionReleases, partitionReleases]
      simp only [hver, hs, ih, List.map_cons]

theorem insertionSort_vrel_map {V : Verlib NV} {g : Release → Release}
    (hver : ∀ r, (g r).version = r.version) (l : List Release) :
    List.insertionSort (vrel V) (l.map g)
      = (List.insertionSort (vrel V) l).map g := by
  refine (List.map_insertionSort (vrel V) (vrel V) g l ?_).symm
  intro a _ b _
  rw [vrel, vrel, vkeyLe, vkeyLe, hver, hver]

theorem insertionSort_crel_map {g : Release → Release}
    (hcre : ∀ r, (g r).created = r.created) (l : List Release) :
    List.insertionSort crel (l.map g) = (List.insertionSort crel l).map g := by
  refine (List.map_insertionSort crel crel g l ?_).symm
  intro a _ b _
  rw [crel, crel, hcre, hcre]

theorem orderedReleases_map {V : Verlib NV} {g : Release → Release}
    (hppk : ∀ r, (g r).package_pk = r.package_pk)
    (hver : ∀ r, (g r).version = r.version)
    (hcre : ∀ r, (g r).created = r.created) (db : List Release) (pkgPk : Nat) :
    orderedReleases V (db.map g) pkgPk = (orderedReleases V db pkgPk).map g := by
  rw [orderedReleases, orderedReleases, packageReleases_map hppk,
    partitionReleases_map hver]
  rw [insertionSort_crel_map hcre, insertionSort_vrel_map hver, List.map_append]

/-! ### Positions within the concatenation `dated + versions` -/

theorem orderedReleases_getElem_lt {V : Verlib NV} {db : List Release} {pkgPk : Nat}
    {k : Nat} (hk : k < (orderedReleases V db pkgPk).length)
    (hlt : k < (List.insertionSort crel
      (partitionReleases V (packageReleases db pkgPk)).2).length) :
    V.suggest (orderedReleases V db pkgPk)[k].version = none := by
  have e : orderedReleases V db pkgPk
      = List.insertionSort crel (partitionReleases V (packageReleases db pkgPk)).2
        ++ List.insertionSort (vrel V) (partitionReleases V (packageReleases db pkgPk)).1 :=
    rfl
  have : (orderedReleases V db pkgPk)[k]
      ∈ List.insertionSort crel (partitionReleases V (packageReleases db pkgPk)).2 := by
    rw [List.getElem_of_eq e hk, List.getElem_append_left hlt]
    exact List.getElem_mem hlt
  exact mem_partition_snd _ ((List.perm_insertionSort crel _).mem_iff.mp this)

theorem orderedReleases_getElem_ge {V : Verlib NV} {db : List Release} {pkgPk : Nat}
    {k : Nat} (hk : k < (orderedReleases V db pkgPk).length)
    (hge : (List.insertionSort crel
      (partitionReleases V (packageReleases db pkgPk)).2).length ≤ k) :
    (V.suggest (orderedReleases V db pkgPk)[k].version).isSome := by
  have e : orderedReleases V db pkgPk
      = List.insertionSort crel (partitionReleases V (packageReleases db pkgPk)).2
        ++ List.insertionSort (vrel V) (partitionReleases V (packageReleases db pkgPk)).1 :=
    rfl
  have hk2 : k - (List.insertionSort crel
      (partitionReleases V (packageReleases db pkgPk)).2).length
      < (List.insertionSort (vrel V)
        (partitionReleases V (packageReleases db pkgPk)).1).length := by
    have hke := hk
    rw [e, List.length_append] at hke
    omega
  have : (orderedReleases V db pkgPk)[k]
      ∈ List.insertionSort (vrel V) (partitionReleases V (packageReleases db pkgPk)).1 := by
    rw [List.getElem_of_eq e hk, List.getElem_append_right hge]
    exact List.getElem_mem hk2
  exact mem_partition_fst _ ((List.perm_insertionSort (vrel V) _).mem_iff.mp this)

/-! ### Claim theorems -/

/-- C6: the ordering routine runs only on creation: a `post_save` dispatch for
an existing (non-created) release — `created=False` in the signal kwargs —
leaves the database unchanged and performs no writes. -/
theorem version_ordering_only_on_create (V : Verlib NV) (db : List Release)
    (inst : Release) :
    version_ordering V db (some inst) (some false) = (db, []) := rfl

/-- C7: a release of the saved instance's package whose version string does not
normalize (`suggest_normalized_version` returns `None`) lands in the `dated`
bucket, and the routine still completes normally, returning a database with one
row per input row. -/
theorem unparseable_version_goes_dated (V : Verlib NV) (db : List Release)
    (inst : Release) {r : Release} (hr : r ∈ db)
    (hp : r.package_pk = inst.package_pk) (hnone : V.suggest r.version = none) :
    r ∈ (partitionReleases V (packageReleases db inst.package_pk)).2
      ∧ (version_ordering V db (some inst) (some true)).1.length = db.length := by
  constructor
  · refine mem_partition_snd_of_none ?_ hnone
    rw [packageReleases, List.mem_filter]
    exact ⟨hr, by simp [hp]⟩
  · rw [version_ordering_fst, List.length_map]

theorem unparseable_version_goes_dated_witness :
    sampleRelease 2 10 verDated 3 0
        ∈ (partitionReleases toyVerlib (packageReleases sampleDb 10)).2
      ∧ (version_ordering toyVerlib sampleDb
          (some (sampleRelease 1 10 verTwo 5 0)) (some true)).1.length
        = sampleDb.length :=
  unparseable_version_goes_dated toyVerlib sampleDb (sampleRelease 1 10 verTwo 5 0)
    (by decide) (by decide) (by decide)

/-- C10: a package with no releases has no latest release and no requirement
line. -/
theorem no_releases_latest_none (V : Verlib NV) (db : List Release)
    (pkgName : String) (pkgPk : Nat) (hempty : packageReleases db pkgPk = []) :
    packageLatest db pkgPk = none ∧ requirementLine V db pkgName pkgPk = none := by
  have hlat : packageLatest db pkgPk = none := by
    rw [packageLatest, hempty]
    rfl
  refine ⟨hlat, ?_⟩
  rw [requirementLine, hlat]

theorem no_releases_latest_none_witness :
    packageLatest sampleDb 99 = none
      ∧ requirementLine toyVerlib sampleDb samplePkgName 99 = none :=
  no_releases_latest_none toyVerlib sampleDb samplePkgName 99 (by decide)

/-- C8: when the saved release is the only release of its package, the routine
leaves its database row with `order = 0`. -/
theorem single_release_gets_order_zero (V : Verlib NV) (db : List Release)
    (inst : Release) {r : Release} (hnd : (db.map Release.pk).Nodup)
    (hsingle : packageReleases db inst.package_pk = [r]) :
    (version_ordering V db (some inst) (some true)).1.find? (fun s => s.pk = r.pk)
      = some { r with order := 0 } := by
  have e : orderedReleases V db inst.package_pk = [r] := by
    have e0 : orderedReleases V db inst.package_pk
        = List.insertionSort crel
            (partitionReleases V (packageReleases db inst.package_pk)).2
          ++ List.insertionSort (vrel V)
            (partitionReleases V (packageReleases db inst.package_pk)).1 := rfl
    rw [e0, hsingle]
    rcases hs : V.suggest r.version with _ | nv
    · simp [partitionReleases, hs, List.insertionSort]
    · simp [partitionReleases, hs, List.insertionSort, List.orderedInsert]
  have hk : 0 < (orderedReleases V db inst.package_pk).length := by
    rw [e]
    simp
  have hfind := version_ordering_find V db inst hnd 0 hk
  have hget : (orderedReleases V db inst.package_pk)[0] = r := by
    rw [List.getElem_of_eq e hk]
    rfl
  rw [hget] at hfind
  simpa using hfind

theorem single_release_gets_order_zero_witness :
    (version_ordering toyVerlib sampleDb
        (some (sampleRelease 3 11 verOne 1 0)) (some true)).1.find?
        (fun s => s.pk = (sampleRelease 3 11 verOne 1 0).pk)
      = some { sampleRelease 3 11 verOne 1 0 with order := 0 } :=
  single_release_gets_order_zero toyVerlib sampleDb (sampleRelease 3 11 verOne 1 0)
    (by decide) (by decide)

/-- C5: the routine mutates only the `order` field — the image of the database
under the routine agrees with the input row-for-row on every field except
`order` — and a release already carrying its computed position as `order` is
not written at all. -/
theorem version_ordering_frame_and_min_writes (V : Verlib NV) (db : List Release)
    (inst : Release) (hnd : (db.map Release.pk).Nodup) :
    ((version_ordering V db (some inst) (some true)).1.map Release.frame
        = db.map Release.frame)
      ∧ ∀ k (hk : k < (orderedReleases V db inst.package_pk).length),
          (orderedReleases V db inst.package_pk)[k].order = (k : Int) →
          (orderedReleases V db inst.package_pk)[k].pk
            ∉ (version_ordering V db (some inst) (some true)).2 := by
  constructor
  · rw [version_ordering_fst, List.map_map]
    refine List.map_congr_left fun r _ => ?_
    exact applyAssign_frame _ 0 r
  · intro k hk horder hmem
    rw [version_ordering_created] at hmem
    rcases assignOrders_snd_mem _ 0 db [] _ hmem with habs | ⟨k', hk', hpk, hord⟩
    · exact absurd habs (by simp)
    · have hkk : k' = k := by
        have hnd' : ((orderedReleases V db inst.package_pk).map Release.pk).Nodup :=
          nodup_pk_orderedReleases hnd
        have hm1 : k' < ((orderedReleases V db inst.package_pk).map Release.pk).length := by
          simpa using hk'
        have hm2 : k < ((orderedReleases V db inst.package_pk).map Release.pk).length := by
          simpa using hk
        have h1 : ((orderedReleases V db inst.package_pk).map Release.pk)[k']
            = ((orderedReleases V db inst.package_pk).map Release.pk)[k] := by
          rw [List.getElem_map, List.getElem_map]
          exact hpk
        exact (hnd'.getElem_inj_iff).mp h1
      subst hkk
      exact hord (by simpa using horder)

theorem version_ordering_frame_and_min_writes_witness :
    (version_ordering toyVerlib sampleDb
        (some (sampleRelease 1 10 verTwo 5 0)) (some true)).1.map Release.frame
      = sampleDb.map Release.frame :=
  (version_ordering_frame_and_min_writes toyVerlib sampleDb
    (sampleRelease 1 10 verTwo 5 0) (by decide)).1

/-- C9: for a package with at least one release, `Package.latest` returns a
release of that package whose `order` is maximal among the package's releases. -/
theorem latest_is_highest_order (db : List Release) (pkgPk : Nat)
    (h : packageReleases db pkgPk ≠ []) :
    ∃ r, packageLatest db pkgPk = some r ∧ r ∈ packageReleases db pkgPk
      ∧ ∀ s ∈ packageReleases db pkgPk, s.order ≤ r.order := by
  haveI : IsTotal Release (fun a b : Release => b.order ≤ a.order) :=
    ⟨fun a b => (Int.le_total a.order b.order).symm⟩
  haveI : IsTrans Release (fun a b : Release => b.order ≤ a.order) :=
    ⟨fun _ _ _ hab hbc => le_trans hbc hab⟩
  have hsorted := List.sorted_insertionSort
    (fun a b : Release => b.order ≤ a.order) (packageReleases db pkgPk)
  have hperm := List.perm_insertionSort
    (fun a b : Release => b.order ≤ a.order) (packageReleases db pkgPk)
  rcases hL : List.insertionSort (fun a b : Release => b.order ≤ a.order)
      (packageReleases db pkgPk) with _ | ⟨hd, tl⟩
  · rw [hL] at hperm
    exact absurd hperm.symm.eq_nil h
  · rw [hL] at hperm hsorted
    refine ⟨hd, ?_, ?_, ?_⟩
    · rw [packageLatest, hL]
      rfl
    · exact hperm.mem_iff.mp (List.mem_cons_self _ _)
    · intro s hs
      rcases List.mem_cons.mp (hperm.symm.mem_iff.mp hs) with rfl | hstl
      · exact le_refl _
      · exact (List.pairwise_cons.mp hsorted).1 s hstl

theorem latest_is_highest_order_witness :
    ∃ r, packageLatest sampleDb 10 = some r ∧ r ∈ packageReleases sampleDb 10
      ∧ ∀ s ∈ packageReleases sampleDb 10, s.order ≤ r.order :=
  latest_is_highest_order sampleDb 10 (by decide)

/-- C2: after the routine runs for a created release, the `order` values of the
releases of that package are exactly `0, 1, ..., N-1` up to permutation, where
`N` is the number of releases of the package — a bijection between the
package's releases and the positions `0..N-1`. -/
theorem order_values_are_range (V : Verlib NV) (db : List Release) (inst : Release)
    (hnd : (db.map Release.pk).Nodup) :
    ((packageReleases (version_ordering V db (some inst) (some true)).1
        inst.package_pk).map Release.order).Perm
      ((List.range (packageReleases db inst.package_pk).length).map Int.ofNat) := by
  have hppk : ∀ r, (applyAssign 0 (orderedReleases V db inst.package_pk) r).package_pk
      = r.package_pk := applyAssign_package_pk _ 0
  have h1 : packageReleases (version_ordering V db (some inst) (some true)).1
      inst.package_pk
      = (packageReleases db inst.package_pk).map
        (applyAssign 0 (orderedReleases V db inst.package_pk)) := by
    rw [version_ordering_fst, packageReleases_map hppk]
  have hperm : ((packageReleases db inst.package_pk).map
        (applyAssign 0 (orderedReleases V db inst.package_pk))).Perm
      ((orderedReleases V db inst.package_pk).map
        (applyAssign 0 (orderedReleases V db inst.package_pk))) :=
    ((orderedReleases_perm V db inst.package_pk).map _).symm
  have h2 : ((orderedReleases V db inst.package_pk).map
        (applyAssign 0 (orderedReleases V db inst.package_pk))).map Release.order
      = (List.range (packageReleases db inst.package_pk).length).map Int.ofNat := by
    refine List.ext_getElem ?_ ?_
    · rw [List.length_map, List.length_map, List.length_map, List.length_range]
      exact (orderedReleases_perm V db inst.package_pk).length_eq
    · intro n h1' h2'
      have hn : n < (orderedReleases V db inst.package_pk).length := by
        rw [List.length_map, List.length_map] at h1'
        exact h1'
      rw [List.getElem_map, List.getElem_map, List.getElem_map, List.getElem_range]
      rw [applyAssign_getElem _ 0 n hn (nodup_pk_orderedReleases hnd)]
      simp
  rw [h1]
  exact (hperm.map Release.order).trans (by rw [h2])

theorem order_values_are_range_witness :
    ((packageReleases (version_ordering toyVerlib sampleDb
        (some (sampleRelease 1 10 verTwo 5 0)) (some true)).1 10).map Release.order).Perm
      ((List.range (packageReleases sampleDb 10).length).map Int.ofNat) :=
  order_values_are_range toyVerlib sampleDb (sampleRelease 1 10 verTwo 5 0) (by decide)

/-- After the routine runs, every release of the affected package in the new
database is a pre-state release of that package carrying its position in the
sorted concatenation as `order`. -/
theorem result_release_position (V : Verlib NV) (db : List Release) (inst : Release)
    (hnd : (db.map Release.pk).Nodup) {x : Release}
    (hx : x ∈ (version_ordering V db (some inst) (some true)).1)
    (hxp : x.package_pk = inst.package_pk) :
    ∃ k, ∃ hk : k < (orderedReleases V db inst.package_pk).length,
      x = { (orderedReleases V db inst.package_pk)[k] with order := (k : Int) } := by
  rw [version_ordering_fst] at hx
  rcases List.mem_map.mp hx with ⟨r, hr, rfl⟩
  have hrp : r.package_pk = inst.package_pk := by
    rw [← applyAssign_package_pk (orderedReleases V db inst.package_pk) 0 r]
    exact hxp
  have hrrel : r ∈ packageReleases db inst.package_pk := by
    rw [packageReleases, List.mem_filter]
    exact ⟨hr, by simp [hrp]⟩
  have hrord : r ∈ orderedReleases V db inst.package_pk :=
    (orderedReleases_perm V db inst.package_pk).mem_iff.mpr hrrel
  rcases List.mem_iff_getElem.mp hrord with ⟨k, hk, hkr⟩
  refine ⟨k, hk, ?_⟩
  rw [← hkr, applyAssign_getElem _ 0 k hk (nodup_pk_orderedReleases hnd)]
  simp

/-- C3: after the routine runs, every dated release (version does not
normalize) of the package has a strictly smaller `order` than every versioned
release (version normalizes) of the package, regardless of versions and
timestamps. -/
theorem dated_precede_versioned (V : Verlib NV) (db : List Release) (inst : Release)
    (hnd : (db.map Release.pk).Nodup) {d v : Release}
    (hd : d ∈ (version_ordering V db (some inst) (some true)).1)
    (hdp : d.package_pk = inst.package_pk) (hdn : V.suggest d.version = none)
    (hv : v ∈ (version_ordering V db (some inst) (some true)).1)
    (hvp : v.package_pk = inst.package_pk) (hvs : (V.suggest v.version).isSome) :
    d.order < v.order := by
  rcases result_release_position V db inst hnd hd hdp with ⟨k, hk, rfl⟩
  rcases result_release_position V db inst hnd hv hvp with ⟨k', hk', rfl⟩
  have hkd : V.suggest (orderedReleases V db inst.package_pk)[k].version = none := hdn
  have hks : (V.suggest (orderedReleases V db inst.package_pk)[k'].version).isSome := hvs
  have hlt : k < (List.insertionSort crel
      (partitionReleases V (packageReleases db inst.package_pk)).2).length := by
    by_contra hge
    have := orderedReleases_getElem_ge hk (Nat.le_of_not_lt hge)
    rw [hkd] at this
    exact absurd this (by simp)
  have hge : (List.insertionSort crel
      (partitionReleases V (packageReleases db inst.package_pk)).2).length ≤ k' := by
    by_contra hlt'
    have := orderedReleases_getElem_lt hk' (Nat.lt_of_not_le hlt')
    rw [this] at hks
    exact absurd hks (by simp)
  show (k : Int) < (k' : Int)
  exact_mod_cast Nat.lt_of_lt_of_le hlt hge

theorem dated_precede_versioned_witness :
    ({ sampleRelease 2 10 verDated 3 0 with order := (0 : Int) } : Release).order
      < ({ sampleRelease 4 10 verOne 9 0 with order := (1 : Int) } : Release).order := by
  have hd : ({ sampleRelease 2 10 verDated 3 0 with order := (0 : Int) } : Release)
      ∈ (version_ordering toyVerlib sampleDb
        (some (sampleRelease 1 10 verTwo 5 0)) (some true)).1 := by decide
  have hv : ({ sampleRelease 4 10 verOne 9 0 with order := (1 : Int) } : Release)
      ∈ (version_ordering toyVerlib sampleDb
        (some (sampleRelease 1 10 verTwo 5 0)) (some true)).1 := by decide
  exact dated_precede_versioned toyVerlib sampleDb (sampleRelease 1 10 verTwo 5 0)
    (by decide) hd (by decide) (by decide) hv (by decide) (by decide)

/-- C4: re-running the routine on the same package with no releases added or
removed changes nothing: the database is returned as is and no write is
performed. -/
theorem version_ordering_idempotent (V : Verlib NV) (db : List Release)
    (inst inst' : Release) (hnd : (db.map Release.pk).Nodup)
    (hpk : inst'.package_pk = inst.package_pk) :
    version_ordering V (version_ordering V db (some inst) (some true)).1
        (some inst') (some true)
      = ((version_ordering V db (some inst) (some true)).1, []) := by
  have hres : (version_ordering V db (some inst) (some true)).1
      = db.map (applyAssign 0 (orderedReleases V db inst.package_pk)) :=
    version_ordering_fst V db inst
  have hord2 : orderedReleases V (version_ordering V db (some inst) (some true)).1
        inst'.package_pk
      = (orderedReleases V db inst.package_pk).map
        (applyAssign 0 (orderedReleases V db inst.package_pk)) := by
    rw [hpk, hres]
    exact orderedReleases_map (applyAssign_package_pk _ 0) (applyAssign_version _ 0)
      (applyAssign_created _ 0) db inst.package_pk
  rw [version_ordering_created]
  refine assignOrders_of_orders_eq _ 0 _ _ fun k hk => ?_
  have hk' : k < (orderedReleases V db inst.package_pk).length := by
    rw [hord2, List.length_map] at hk
    exact hk
  rw [List.getElem_of_eq hord2 hk, List.getElem_map,
    applyAssign_getElem _ 0 k hk' (nodup_pk_orderedReleases hnd)]

theorem version_ordering_idempotent_witness :
    version_ordering toyVerlib
        (version_ordering toyVerlib sampleDb
          (some (sampleRelease 1 10 verTwo 5 0)) (some true)).1
        (some (sampleRelease 4 10 verOne 9 0)) (some true)
      = ((version_ordering toyVerlib sampleDb
          (some (sampleRelease 1 10 verTwo 5 0)) (some true)).1, []) :=
  version_ordering_idempotent toyVerlib sampleDb (sampleRelease 1 10 verTwo 5 0)
    (sampleRelease 4 10 verOne 9 0) (by decide) (by decide)

/-- Totality of the normalized-version key comparison, given totality of the
underlying comparison on normalized versions. -/
theorem vrel_total (V : Verlib NV)
    (htot : ∀ a b, V.nvle a b = true ∨ V.nvle b a = true) (x y : Release) :
    vrel V x y ∨ vrel V y x := by
  rcases hx : V.suggest x.version with _ | a
  · exact Or.inl (by rw [vrel, vkeyLe]; simp [hx])
  · rcases hy : V.suggest y.version with _ | b
    · exact Or.inr (by rw [vrel, vkeyLe]; simp [hy])
    · rcases htot a b with h | h
      · exact Or.inl (by rw [vrel, vkeyLe]; simp [hx, hy, h])
      · exact Or.inr (by rw [vrel, vkeyLe]; simp [hx, hy, h])

/-- Transitivity of the normalized-version key comparison, given transitivity
of the underlying comparison on normalized versions. -/
theorem vrel_trans (V : Verlib NV)
    (htrans : ∀ a b c, V.nvle a b = true → V.nvle b c = true → V.nvle a c = true)
    (x y z : Release) (hxy : vrel V x y) (hyz : vrel V y z) : vrel V x z := by
  rcases hx : V.suggest x.version with _ | a
  · rw [vrel, vkeyLe]
    simp [hx]
  · rcases hy : V.suggest y.version with _ | b
    · rw [vrel, vkeyLe] at hxy
      simp [hx, hy] at hxy
    · rcases hz : V.suggest z.version with _ | c
      · rw [vrel, vkeyLe] at hyz
        simp [hy, hz] at hyz
      · rw [vrel, vkeyLe] at hxy hyz
        simp only [hx, hy, hz] at hxy hyz
        rw [vrel, vkeyLe]
        simp only [hx, hz]
        exact htrans a b c hxy hyz

/-- C1: the full contract of the release-ordering routine.  For a created
release, the routine (i) partitions the package's releases into the versioned
bucket (version normalizes) and the dated bucket (it does not), (ii) sorts the
versioned bucket ascending by normalized-version comparison and the dated
bucket ascending by creation time (each sort a permutation of its bucket),
(iii) concatenates dated-then-versioned, and (iv) stores in each release's
database row its 0-based position in that concatenation as `order`. -/
theorem release_ordering_spec (V : Verlib NV) (db : List Release) (inst : Release)
    (hnd : (db.map Release.pk).Nodup)
    (htot : ∀ a b, V.nvle a b = true ∨ V.nvle b a = true)
    (htrans : ∀ a b c, V.nvle a b = true → V.nvle b c = true → V.nvle a c = true) :
    (∀ r ∈ packageReleases db inst.package_pk,
        ((V.suggest r.version).isSome →
          r ∈ (partitionReleases V (packageReleases db inst.package_pk)).1)
        ∧ (V.suggest r.version = none →
          r ∈ (partitionReleases V (packageReleases db inst.package_pk)).2))
    ∧ (∀ r ∈ (partitionReleases V (packageReleases db inst.package_pk)).1,
        (V.suggest r.version).isSome)
    ∧ (∀ r ∈ (partitionReleases V (packageReleases db inst.package_pk)).2,
        V.suggest r.version = none)
    ∧ (packageReleases db inst.package_pk).Perm
        ((partitionReleases V (packageReleases db inst.package_pk)).1
          ++ (partitionReleases V (packageReleases db inst.package_pk)).2)
    ∧ (List.insertionSort (vrel V)
        (partitionReleases V (packageReleases db inst.package_pk)).1).Perm
        (partitionReleases V (packageReleases db inst.package_pk)).1
    ∧ List.Sorted (vrel V) (List.insertionSort (vrel V)
        (partitionReleases V (packageReleases db inst.package_pk)).1)
    ∧ (List.insertionSort crel
        (partitionReleases V (packageReleases db inst.package_pk)).2).Perm
        (partitionReleases V (packageReleases db inst.package_pk)).2
    ∧ List.Sorted crel (List.insertionSort crel
        (partitionReleases V (packageReleases db inst.package_pk)).2)
    ∧ orderedReleases V db inst.package_pk
        = List.insertionSort crel
            (partitionReleases V (packageReleases db inst.package_pk)).2
          ++ List.insertionSort (vrel V)
            (partitionReleases V (packageReleases db inst.package_pk)).1
    ∧ ∀ k (hk : k < (orderedReleases V db inst.package_pk).length),
        (version_ordering V db (some inst) (some true)).1.find?
            (fun s => s.pk = (orderedReleases V db inst.package_pk)[k].pk)
          = some { (orderedReleases V db inst.package_pk)[k] with order := (k : Int) } := by
  haveI hTot : IsTotal Release (vrel V) := ⟨vrel_total V htot⟩
  haveI hTrans : IsTrans Release (vrel V) := ⟨vrel_trans V htrans⟩
  haveI : IsTotal Release crel := ⟨fun a b => Nat.le_total a.created b.created⟩
  haveI : IsTrans Release crel := ⟨fun _ _ _ hab hbc => Nat.le_trans hab hbc⟩
  refine ⟨?_, ?_, ?_, ?_, ?_, ?_, ?_, ?_, rfl, ?_⟩
  · exact fun r hr =>
      ⟨fun hs => mem_partition_fst_of_isSome hr hs,
       fun hn => mem_partition_snd_of_none hr hn⟩
  · exact fun r hr => mem_partition_fst r hr
  · exact fun r hr => mem_partition_snd r hr
  · exact partitionReleases_perm V _
  · exact List.perm_insertionSort (vrel V) _
  · exact List.sorted_insertionSort (vrel V) _
  · exact List.perm_insertionSort crel _
  · exact List.sorted_insertionSort crel _
  · exact version_ordering_find V db inst hnd

theorem release_ordering_spec_witness :
    (version_ordering toyVerlib sampleDb
        (some (sampleRelease 1 10 verTwo 5 0)) (some true)).1.find?
        (fun s => s.pk = (orderedReleases toyVerlib sampleDb 10)[0].pk)
      = some { (orderedReleases toyVerlib sampleDb 10)[0] with order := (0 : Int) } := by
  have h := (release_ordering_spec toyVerlib sampleDb (sampleRelease 1 10 verTwo 5 0)
    (by decide) (fun a b => by simpa [toyVerlib, Nat.ble_eq] using Nat.le_total a b)
    (fun a b c hab hbc => by
      simp only [toyVerlib, Nat.ble_eq] at hab hbc ⊢
      omega)).2.2.2.2.2.2.2.2.2 0 (by decide)
  simpa using h
